import Mathlib

/-!
# Verification of the `deptree` dependency-tree tool

A shallow embedding of the core of `deptree` (src/main.go): the edge-list
parser fed by `go mod graph`, the tree builder with its global visited set,
the re-rooting logic for named-package mode, the tree and export presenters,
and the GitHub description enrichment pass.  Strings are mapped to Lean
`String`, Go maps to association lists (a Go map has no iteration order; where
the code's behaviour depends on map iteration we fix the insertion order or,
for a `Node`'s children, keep the list sorted by key, which is observationally
equivalent because the only consumers are key lookups and a sorted listing).
Network I/O is abstracted by an oracle argument giving each HTTP exchange's
outcome.
-/

namespace Deptree

/-! ## Go string primitives (modelled on `List Char` so they compute) -/

/-- The character set of Go's `unicode.IsSpace` restricted to Latin-1
(tab, newline, vertical tab, form feed, carriage return, space, NEL, NBSP);
code points above U+00FF in category Z are not modelled. -/
def goIsSpace (c : Char) : Bool :=
  c == ' ' || c == '\t' || c == '\n' || c == '\x0b' || c == '\x0c' || c == '\r' ||
  c == '\u0085' || c == ' '

/-- Split a character list at every character satisfying `p`, keeping empty
segments (the semantics of repeatedly cutting at separators). -/
def splitByP (p : Char → Bool) : List Char → List (List Char)
  | [] => [[]]
  | c :: rest =>
    let r := splitByP p rest
    if p c then [] :: r
    else
      match r with
      | [] => [[c]]
      | g :: gs => (c :: g) :: gs

/-- Go `strings.Fields`: the maximal runs of non-whitespace characters. -/
def goFields (s : String) : List String :=
  ((splitByP goIsSpace s.toList).filter (fun g => !g.isEmpty)).map (fun g => String.mk g)

/-- Go `strings.Split(s, "@")[0]`: everything before the first `@`. -/
def stripVersion (s : String) : String :=
  String.mk (s.toList.takeWhile (fun c => !(c == '@')))

/-- `listStarts pre l`: `pre` is a prefix of `l`. -/
def listStarts : List Char → List Char → Bool
  | [], _ => true
  | _ :: _, [] => false
  | c :: cs, d :: ds => c == d && listStarts cs ds

/-- Go `strings.HasPrefix(s, pre)` (argument order: the prefix first). -/
def strStarts (pre s : String) : Bool :=
  listStarts pre.toList s.toList

/-- Go `strings.TrimPrefix`: drop `pre` if it is a prefix, else unchanged. -/
def goTrimPre (pre s : List Char) : List Char :=
  if listStarts pre s then s.drop pre.length else s

/-- Lexicographic (code-point) order on strings, the order of Go's
`sort.Strings` (UTF-8 byte order coincides with code-point order). -/
def lexLe : List Char → List Char → Bool
  | [], _ => true
  | _ :: _, [] => false
  | c :: cs, d :: ds =>
    decide (c.toNat < d.toNat) || (decide (c.toNat = d.toNat) && lexLe cs ds)

def leStr (a b : String) : Bool := lexLe a.toList b.toList

/-- Insert into a `leStr`-sorted list of strings. -/
def insertSorted (x : String) : List String → List String
  | [] => [x]
  | y :: ys => if leStr x y then x :: y :: ys else y :: insertSorted x ys

/-- Insertion sort by `leStr`, modelling Go's `sort.Strings`. -/
def sortStrings (l : List String) : List String :=
  l.foldr insertSorted []

/-! ## Edge-list parser (`getModuleDependencies`, src/main.go:129-156)

The subprocess and scanner are out of scope; the parser proper consumes the
command's output line by line.  The Go map `deps` is an association list with
`addEdge` reproducing `deps[from] = append(deps[from], to)`. -/

def lookupDeps (deps : List (String × List String)) (name : String) : List String :=
  match deps.find? (fun p => p.1 == name) with
  | some p => p.2
  | none => []

def addEdge : List (String × List String) → String → String → List (String × List String)
  | [], f, t => [(f, [t])]
  | (k, vs) :: rest, f, t =>
    if k == f then (k, vs ++ [t]) :: rest else (k, vs) :: addEdge rest f t

/-- One scanner iteration: split the line into fields and record the edge
only when there are exactly two tokens. -/
def parseLine (deps : List (String × List String)) (line : String) :
    List (String × List String) :=
  match goFields line with
  | [f, t] => addEdge deps f t
  | _ => deps

def getModuleDependencies (lines : List String) : List (String × List String) :=
  lines.foldl parseLine []

/-! ## The `Node` data model (src/main.go:18-28)

`Children map[string]*Node` becomes `NodeChildren`, an association structure
kept sorted by key: the Go map is unordered and its only consumers are key
lookups and a name-sorted listing, so a sorted association list is
observationally equivalent. -/

mutual
inductive Node where
  | mk (name : String) (description : String) (children : NodeChildren)
inductive NodeChildren where
  | nil : NodeChildren
  | cons (key : String) (child : Node) (rest : NodeChildren) : NodeChildren
end

def Node.name : Node → String
  | .mk n _ _ => n

def Node.description : Node → String
  | .mk _ d _ => d

def Node.children : Node → NodeChildren
  | .mk _ _ cs => cs

def NodeChildren.hasKey : NodeChildren → String → Bool
  | .nil, _ => false
  | .cons k _ rest, c => k == c || rest.hasKey c

def NodeChildren.length : NodeChildren → Nat
  | .nil => 0
  | .cons _ _ rest => rest.length + 1

def NodeChildren.isEmpty : NodeChildren → Bool
  | .nil => true
  | .cons _ _ _ => false

def NodeChildren.toList : NodeChildren → List (String × Node)
  | .nil => []
  | .cons k c rest => (k, c) :: rest.toList

/-- Insert a child at its sorted position (the key is absent when called). -/
def insertChild (c : String) (n : Node) : NodeChildren → NodeChildren
  | .nil => .cons c n .nil
  | .cons k m rest =>
    if leStr c k then .cons c n (.cons k m rest) else .cons k m (insertChild c n rest)

/-- First child (in stored order) whose key satisfies `p`; models Go's
`for childName, childNode := range root.Children` search. -/
def NodeChildren.findMatch : NodeChildren → (String → Bool) → Option (String × Node)
  | .nil, _ => none
  | .cons k c rest, p => if p k then some (k, c) else rest.findMatch p

mutual
/-- Every node of the tree, root first (preorder). -/
def Node.allNodes : Node → List Node
  | .mk n d cs => .mk n d cs :: cs.allNodesC

def NodeChildren.allNodesC : NodeChildren → List Node
  | .nil => []
  | .cons _ child rest => child.allNodes ++ rest.allNodesC
end

/-- Names of the nodes that carry at least one child. -/
def expandedOf (ns : List Node) : List String :=
  ns.filterMap (fun n => if n.children.isEmpty then none else some n.name)

def expandedNames (t : Node) : List String :=
  expandedOf t.allNodes

/-- All node names of a tree (the enrichment pass collects these). -/
def collectNames (t : Node) : List String :=
  t.allNodes.map Node.name

/-! ## Tree construction (`buildTree`, src/main.go:304-318)

The Go recursion carries no fuel; `buildTreeF` adds an explicit fuel
parameter, and the termination theorem shows the result is independent of the
fuel once it exceeds the number of mapping entries, so `buildTree` fixes the
fuel at `deps.length + 1`. -/

/-- The loop over `deps[node.Name]`: attach a fresh child node for every
dependency identifier not already present among the children, recursing via
`rec` (the builder at the next smaller fuel). -/
def buildChildrenAux (rec : String → List String → Node × List String) :
    List String → NodeChildren → List String → NodeChildren × List String
  | [], acc, visited => (acc, visited)
  | c :: cs, acc, visited =>
    if acc.hasKey c then buildChildrenAux rec cs acc visited
    else
      let r := rec c visited
      buildChildrenAux rec cs (insertChild c r.1 acc) r.2

/-- `buildTree`: return at once if the identifier is already visited, else
mark it visited and expand its dependencies. -/
def buildTreeF (deps : List (String × List String)) :
    Nat → String → List String → Node × List String
  | 0, name, visited => (Node.mk name "" NodeChildren.nil, visited)
  | fuel + 1, name, visited =>
    if visited.contains name then (Node.mk name "" NodeChildren.nil, visited)
    else
      let r := buildChildrenAux (fun c v => buildTreeF deps fuel c v)
        (lookupDeps deps name) NodeChildren.nil (name :: visited)
      (Node.mk name "" r.1, r.2)

def buildTree (deps : List (String × List String)) (root : String) : Node :=
  (buildTreeF deps (deps.length + 1) root []).1

/-! ## Root selection and re-rooting (`buildDependencyTree`, src/main.go:263-302) -/

/-- Pick the first key without an `@` (the unversioned local module); if none
is found (or that key is the empty string), fall back to the first key. -/
def selectRoot (deps : List (String × List String)) : String :=
  let r :=
    match deps.find? (fun p => !(p.1.toList.contains '@')) with
    | some p => p.1
    | none => ""
  if r == "" then
    match deps with
    | [] => ""
    | p :: _ => p.1
  else r

/-- The child-matching test of re-rooting: the child's version-stripped name
is a prefix of the requested package's base, or conversely. -/
def matchesRequested (pkgBase childName : String) : Bool :=
  let childBase := stripVersion childName
  strStarts childBase pkgBase || strStarts pkgBase childBase

def buildDependencyTree (deps : List (String × List String))
    (requestedPackage : String) : Node :=
  let rootModule := selectRoot deps
  let root := buildTree deps rootModule
  if rootModule == "temp" && requestedPackage != "" then
    let packageBase := stripVersion requestedPackage
    match root.children.findMatch (fun childName => matchesRequested packageBase childName) with
    | some p => p.2
    | none => root
  else root

/-! ## Tree presenter (`printTree`/`printNode`, src/main.go:320-358)

The children are stored sorted by key (see `NodeChildren`), so iterating them
in stored order reproduces Go's "collect names, `sort.Strings`, look each one
up" loop.  Output is the list of printed lines. -/

mutual
def printNodeLines (showDesc : Bool) : Node → String → List String
  | .mk _ _ cs, pre => printChildLines showDesc cs cs.length 0 pre

def printChildLines (showDesc : Bool) : NodeChildren → Nat → Nat → String → List String
  | .nil, _, _, _ => []
  | .cons _ child rest, total, i, pre =>
    let isLast := i == total - 1
    let connector := if isLast then "└── " else "├── "
    let childPre := if isLast then pre ++ "    " else pre ++ "│   "
    let line :=
      if showDesc && !(child.description == "") then
        pre ++ connector ++ child.name ++ " - " ++ child.description
      else pre ++ connector ++ child.name
    line :: (printNodeLines showDesc child childPre ++ printChildLines showDesc rest total (i + 1) pre)
end

def printTreeLines (node : Node) (showDesc : Bool) : List String :=
  (if showDesc && !(node.description == "") then
    node.name ++ " - " ++ node.description
  else node.name) :: printNodeLines showDesc node ""

/-! ## Export presenter (`printExport`/`isToolchainDep`, src/main.go:360-421) -/

def isToolchainDep (dep : String) : Bool :=
  strStarts "go@" dep || strStarts "toolchain@" dep

/-- Set insertion into the deduplicated collection (`uniqueDeps[x] = true`). -/
def addUnique (x : String) (l : List String) : List String :=
  if l.contains x then l else l ++ [x]

/-- Collect every `from` key except `"temp"` and every `to` value, skipping
toolchain pseudo-dependencies, deduplicated. -/
def uniqueDepsOf (deps : List (String × List String)) : List String :=
  deps.foldl
    (fun acc p =>
      let acc1 := if p.1 != "temp" && !isToolchainDep p.1 then addUnique p.1 acc else acc
      p.2.foldl (fun a t => if !isToolchainDep t then addUnique t a else a) acc1)
    []

/-! ## Description enrichment (src/main.go:162-261)

`extractGitHubRepo` and the error handling of `fetchGitHubDescription` are
pure; the single HTTP exchange is abstracted by an oracle `net owner repo`
giving the outcome of the request. -/

/-- Outcome of the one HTTP GET: request construction failed, the round trip
failed, or a response arrived with a status code and a decode result (the
decoded `description` field, or the JSON decoder's error). -/
inductive HttpResult where
  | newRequestError (msg : String)
  | doError (msg : String)
  | response (status : Nat) (body : Except String String)

def extractGitHubRepo (modulePath : String) : Option (String × String) :=
  let path := stripVersion modulePath
  if strStarts "github.com/" path then
    match splitByP (fun c => c == '/') (goTrimPre "github.com/".toList path.toList) with
    | p0 :: p1 :: _ => some (String.mk p0, String.mk p1)
    | _ => none
  else none

def fetchGitHubDescription (net : String → String → HttpResult)
    (modulePath token : String) : Except String String :=
  match extractGitHubRepo modulePath with
  | none => Except.error "not a GitHub module"
  | some (owner, repo) =>
    match net owner repo with
    | HttpResult.newRequestError m => Except.error ("failed to create request: " ++ m)
    | HttpResult.doError m => Except.error ("failed to fetch from GitHub API: " ++ m)
    | HttpResult.response status body =>
      if status != 200 then Except.error ("GitHub API returned status " ++ toString status)
      else
        match body with
        | Except.error m => Except.error ("failed to parse response: " ++ m)
        | Except.ok d => if d == "" then Except.error "no description set" else Except.ok d

/-- The description a node ends up displaying: the fetched text on success,
the parenthesized error message on failure (`fetchDescriptions` goroutine
body, also reused verbatim by export mode). -/
def descString (net : String → String → HttpResult) (name token : String) : String :=
  match fetchGitHubDescription net name token with
  | Except.ok d => d
  | Except.error e => "(" ++ e ++ ")"

/-- Dedup by first occurrence, modelling collection into a map keyed by
identifier. -/
def dedupStr (l : List String) : List String :=
  l.foldl (fun acc x => addUnique x acc) []

/-- `fetchDescriptions`: one fetch task per distinct collected identifier;
after the join every identifier has its description recorded. -/
def fetchDescriptionsMap (net : String → String → HttpResult) (root : Node)
    (token : String) : List (String × String) :=
  (dedupStr (collectNames root)).map (fun n => (n, descString net n token))

/-- `printExport`: the deduplicated sorted list; with descriptions, each line
is looked up in the description map filled by the (joined) fetch tasks, with
a bare-identifier fallback when the key is missing. -/
def printExportLines (net : String → String → HttpResult)
    (deps : List (String × List String)) (showDesc : Bool) (token : String) :
    List String :=
  let depList := sortStrings (uniqueDepsOf deps)
  if showDesc then
    let descriptions := depList.map (fun d => (d, descString net d token))
    depList.map (fun dep =>
      match descriptions.find? (fun p => p.1 == dep) with
      | some p => dep ++ " - " ++ p.2
      | none => dep)
  else depList

/-! ## Basic bridging lemmas -/

theorem containsStr {l : List String} {s : String} : l.contains s = true ↔ s ∈ l :=
  List.elem_iff

theorem containsStr_false {l : List String} {s : String} :
    l.contains s = false ↔ s ∉ l := by
  rw [← Bool.not_eq_true, not_iff_not]
  exact containsStr

/-! ## Parser lemmas (claims C7 and C10) -/

/-- The `to` token a line contributes to key `k`, if any: the second field of
a two-field line whose first field is `k`. -/
def keyEdge (k : String) (line : String) : Option String :=
  match goFields line with
  | [f, t] => if f = k then some t else none
  | _ => none

theorem lookupDeps_addEdge (deps : List (String × List String)) (f t k : String) :
    lookupDeps (addEdge deps f t) k =
      if f = k then lookupDeps deps k ++ [t] else lookupDeps deps k := by
  induction deps with
  | nil =>
    by_cases h : f = k
    · have h' : (f == k) = true := by simp [h]
      simp [addEdge, lookupDeps, List.find?, h, h']
    · have h' : (f == k) = false := by simp [h]
      simp [addEdge, lookupDeps, List.find?, h, h']
  | cons p rest ih =>
    obtain ⟨k0, vs⟩ := p
    by_cases h0 : k0 = f
    · subst h0
      by_cases h : k0 = k
      · have h' : (k0 == k) = true := by simp [h]
        simp [addEdge, lookupDeps, List.find?, h, h']
      · have h' : (k0 == k) = false := by simp [h]
        simp [addEdge, lookupDeps, List.find?, h, h']
    · have h0' : (k0 == f) = false := by simp [h0]
      by_cases h : k0 = k
      · subst h
        by_cases hfk : f = k0
        · exact absurd hfk.symm h0
        · have h' : (k0 == k0) = true := by simp
          simp [addEdge, h0', lookupDeps, List.find?, hfk, h']
      · have h' : (k0 == k) = false := by simp [h]
        simp only [addEdge, h0', Bool.false_eq_true, if_false]
        simp only [lookupDeps, List.find?, h'] at ih ⊢
        exact ih

theorem lookupDeps_parse_aux (lines : List String)
    (acc : List (String × List String)) (k : String) :
    lookupDeps (lines.foldl parseLine acc) k =
      lookupDeps acc k ++ lines.filterMap (keyEdge k) := by
  induction lines generalizing acc with
  | nil => simp
  | cons line rest ih =>
    rw [List.foldl_cons, ih, List.filterMap_cons]
    cases hf : goFields line with
    | nil => simp [parseLine, keyEdge, hf]
    | cons a as =>
      cases as with
      | nil => simp [parseLine, keyEdge, hf]
      | cons b bs =>
        cases bs with
        | cons c cs => simp [parseLine, keyEdge, hf]
        | nil =>
          simp only [parseLine, keyEdge, hf]
          rw [lookupDeps_addEdge]
          by_cases h : a = k <;> simp [h]

/-- **C7**: the edge-list parser maps each `from` token to the ordered list of
its `to` tokens, duplicates and per-key order preserved (the lookup of any key
`k` equals, in order, the second tokens of exactly those lines having exactly
two whitespace-separated tokens whose first token is `k`); and a line that
does not split into exactly two tokens leaves the mapping unchanged, so it
contributes no edge. -/
theorem c7_parser_characterization :
    (∀ (lines : List String) (k : String),
      lookupDeps (getModuleDependencies lines) k = lines.filterMap (keyEdge k))
    ∧ (∀ (deps : List (String × List String)) (line : String),
        (goFields line).length ≠ 2 → parseLine deps line = deps) := by
  constructor
  · intro lines k
    rw [getModuleDependencies, lookupDeps_parse_aux]
    simp [lookupDeps]
  · intro deps line h
    cases hf : goFields line with
    | nil => simp [parseLine, hf]
    | cons a as =>
      cases as with
      | nil => simp [parseLine, hf]
      | cons b bs =>
        cases bs with
        | nil => exact absurd (by simp [hf]) h
        | cons c cs => simp [parseLine, hf]

theorem c7_witness :
    (goFields "a b c").length ≠ 2 ∧ parseLine [] "a b c" = [] :=
  ⟨by decide, c7_parser_characterization.2 [] "a b c" (by decide)⟩

theorem addEdge_values_ne_nil (deps : List (String × List String)) (f t : String)
    (h : ∀ p ∈ deps, p.2 ≠ []) : ∀ p ∈ addEdge deps f t, p.2 ≠ [] := by
  induction deps with
  | nil => simp [addEdge]
  | cons q rest ih =>
    obtain ⟨k, vs⟩ := q
    by_cases hk : k = f
    · subst hk
      simp only [addEdge, beq_self_eq_true, if_true]
      intro p hp
      rcases List.mem_cons.mp hp with h1 | h1
      · subst h1; simp
      · exact h p (List.mem_cons_of_mem _ h1)
    · have hk' : (k == f) = false := by simp [hk]
      simp only [addEdge, hk', Bool.false_eq_true, if_false]
      intro p hp
      rcases List.mem_cons.mp hp with h1 | h1
      · subst h1
        exact h (k, vs) (List.mem_cons_self _ _)
      · exact ih (fun q hq => h q (List.mem_cons_of_mem _ hq)) p h1

theorem parse_values_ne_nil_aux (lines : List String)
    (acc : List (String × List String)) (h : ∀ p ∈ acc, p.2 ≠ []) :
    ∀ p ∈ lines.foldl parseLine acc, p.2 ≠ [] := by
  induction lines generalizing acc with
  | nil => simpa using h
  | cons line rest ih =>
    rw [List.foldl_cons]
    apply ih
    cases hf : goFields line with
    | nil => simpa [parseLine, hf] using h
    | cons a as =>
      cases as with
      | nil => simpa [parseLine, hf] using h
      | cons b bs =>
        cases bs with
        | nil => simpa [parseLine, hf] using addEdge_values_ne_nil acc a b h
        | cons c cs => simpa [parseLine, hf] using h

/-- **C10**: every key of the mapping returned by the parser maps to a
non-empty dependency list: a key is only ever inserted together with a parsed
`to` token, so every entry's list has length at least one. -/
theorem c10_values_nonempty (lines : List String) :
    ∀ p ∈ getModuleDependencies lines, p.2 ≠ [] :=
  parse_values_ne_nil_aux lines [] (by simp)

theorem c10_witness :
    ("a", ["b"]) ∈ getModuleDependencies ["a b"] ∧ ("a", ["b"]).2 ≠ [] :=
  ⟨by decide, c10_values_nonempty ["a b"] ("a", ["b"]) (by decide)⟩

/-! ## End-to-end tree example (claim C2) -/

def exDeps2 : List (String × List String) :=
  [("root", ["dep1@v1.0.0", "dep2@v1.0.0"]), ("dep1@v1.0.0", ["dep3@v1.0.0"]),
   ("dep2@v1.0.0", []), ("dep3@v1.0.0", [])]

/-- **C2**: for the example mapping with no requested package, building the
dependency tree and printing it in tree mode without descriptions yields
exactly the four lines `root`, `├── dep1@v1.0.0`, `│   └── dep3@v1.0.0`,
`└── dep2@v1.0.0` in that order: children sorted lexicographically at each
level, connector `├── ` for all but the last sibling and `└── ` for the
last. -/
theorem c2_tree_example :
    printTreeLines (buildDependencyTree exDeps2 "") false =
      ["root", "├── dep1@v1.0.0", "│   └── dep3@v1.0.0", "└── dep2@v1.0.0"] := by
  decide

/-! ## Sorting lemmas for `sortStrings` -/

theorem lexLe_total (a b : List Char) : lexLe a b = true ∨ lexLe b a = true := by
  induction a generalizing b with
  | nil => left; rfl
  | cons c cs ih =>
    cases b with
    | nil => right; rfl
    | cons d ds =>
      rcases Nat.lt_trichotomy c.toNat d.toNat with h | h | h
      · left; simp [lexLe, h]
      · rcases ih ds with h2 | h2
        · left; simp [lexLe, h, h2]
        · right; simp [lexLe, h.symm, h2]
      · right; simp [lexLe, h]

theorem lexLe_trans {a b c : List Char} (h1 : lexLe a b = true)
    (h2 : lexLe b c = true) : lexLe a c = true := by
  induction a generalizing b c with
  | nil => rfl
  | cons x xs ih =>
    cases b with
    | nil => simp [lexLe] at h1
    | cons y ys =>
      cases c with
      | nil => simp [lexLe] at h2
      | cons z zs =>
        simp only [lexLe, Bool.or_eq_true, Bool.and_eq_true, decide_eq_true_eq] at h1 h2 ⊢
        rcases h1 with h1 | ⟨h1e, h1r⟩
        · rcases h2 with h2 | ⟨h2e, h2r⟩
          · exact Or.inl (Nat.lt_trans h1 h2)
          · exact Or.inl (h2e ▸ h1)
        · rcases h2 with h2 | ⟨h2e, h2r⟩
          · exact Or.inl (h1e ▸ h2)
          · exact Or.inr ⟨h1e.trans h2e, ih h1r h2r⟩

theorem leStr_total (a b : String) : leStr a b = true ∨ leStr b a = true :=
  lexLe_total a.toList b.toList

theorem leStr_trans {a b c : String} (h1 : leStr a b = true)
    (h2 : leStr b c = true) : leStr a c = true :=
  lexLe_trans h1 h2

theorem insertSorted_perm (x : String) (l : List String) :
    List.Perm (insertSorted x l) (x :: l) := by
  induction l with
  | nil => rfl
  | cons y ys ih =>
    by_cases h : leStr x y = true
    · simp [insertSorted, h]
    · simp only [insertSorted, h, Bool.false_eq_true, if_false]
      exact List.Perm.trans (List.Perm.cons y ih) (List.Perm.swap x y ys)

theorem sortStrings_perm (l : List String) : List.Perm (sortStrings l) l := by
  induction l with
  | nil => rfl
  | cons x xs ih =>
    exact List.Perm.trans (insertSorted_perm x (sortStrings xs)) (List.Perm.cons x ih)

theorem mem_sortStrings {l : List String} {s : String} :
    s ∈ sortStrings l ↔ s ∈ l :=
  (sortStrings_perm l).mem_iff

theorem mem_insertSorted {x s : String} {l : List String} :
    s ∈ insertSorted x l ↔ s = x ∨ s ∈ l := by
  rw [(insertSorted_perm x l).mem_iff, List.mem_cons]

theorem pairwise_insertSorted {x : String} {l : List String}
    (h : l.Pairwise (fun a b => leStr a b = true)) :
    (insertSorted x l).Pairwise (fun a b => leStr a b = true) := by
  induction l with
  | nil => simp [insertSorted]
  | cons y ys ih =>
    rcases List.pairwise_cons.mp h with ⟨hy, hys⟩
    by_cases hle : leStr x y = true
    · simp only [insertSorted, hle, if_true]
      refine List.pairwise_cons.mpr ⟨?_, h⟩
      intro z hz
      rcases List.mem_cons.mp hz with h1 | h1
      · exact h1 ▸ hle
      · exact leStr_trans hle (hy z h1)
    · have hyx : leStr y x = true := (leStr_total x y).resolve_left hle
      simp only [insertSorted, hle, Bool.false_eq_true, if_false]
      refine List.pairwise_cons.mpr ⟨?_, ih hys⟩
      intro z hz
      rcases mem_insertSorted.mp hz with h1 | h1
      · exact h1 ▸ hyx
      · exact hy z h1

theorem sortStrings_pairwise (l : List String) :
    (sortStrings l).Pairwise (fun a b => leStr a b = true) := by
  induction l with
  | nil => simp [sortStrings]
  | cons x xs ih => exact pairwise_insertSorted ih

/-! ## Export-mode lemmas (claims C6 and C9) -/

theorem mem_addUnique {x s : String} {l : List String} :
    s ∈ addUnique x l ↔ s ∈ l ∨ s = x := by
  unfold addUnique
  by_cases h : x ∈ l
  · rw [if_pos (containsStr.mpr h)]
    constructor
    · exact Or.inl
    · rintro (h1 | rfl)
      · exact h1
      · exact h
  · rw [if_neg (by rw [containsStr]; exact h)]
    simp

theorem nodup_addUnique {x : String} {l : List String} (h : l.Nodup) :
    (addUnique x l).Nodup := by
  unfold addUnique
  by_cases hx : x ∈ l
  · rwa [if_pos (containsStr.mpr hx)]
  · rw [if_neg (by rw [containsStr]; exact hx)]
    rw [List.nodup_append]
    refine ⟨h, List.nodup_singleton x, ?_⟩
    intro a ha hax
    rw [List.mem_singleton] at hax
    exact hx (hax ▸ ha)

/-- The inner loop over one entry's `to` values. -/
theorem mem_export_inner (ts : List String) (acc : List String) (x : String) :
    x ∈ ts.foldl (fun a t => if !isToolchainDep t then addUnique t a else a) acc ↔
      x ∈ acc ∨ (x ∈ ts ∧ isToolchainDep x = false) := by
  induction ts generalizing acc with
  | nil => simp
  | cons t ts ih =>
    rw [List.foldl_cons, ih]
    by_cases ht : isToolchainDep t
    · simp only [ht, Bool.not_true, Bool.false_eq_true, if_false, List.mem_cons]
      constructor
      · rintro (h | h)
        · exact Or.inl h
        · exact Or.inr ⟨Or.inr h.1, h.2⟩
      · rintro (h | ⟨rfl | h1, h2⟩)
        · exact Or.inl h
        · exact absurd ht (by simp [h2])
        · exact Or.inr ⟨h1, h2⟩
    · simp only [Bool.not_eq_true] at ht
      simp only [ht, Bool.not_false, if_true, mem_addUnique, List.mem_cons]
      constructor
      · rintro ((h | rfl) | h)
        · exact Or.inl h
        · exact Or.inr ⟨Or.inl rfl, ht⟩
        · exact Or.inr ⟨Or.inr h.1, h.2⟩
      · rintro (h | ⟨rfl | h1, h2⟩)
        · exact Or.inl (Or.inl h)
        · exact Or.inl (Or.inr rfl)
        · exact Or.inr ⟨h1, h2⟩

theorem nodup_export_inner (ts : List String) (acc : List String) (h : acc.Nodup) :
    (ts.foldl (fun a t => if !isToolchainDep t then addUnique t a else a) acc).Nodup := by
  induction ts generalizing acc with
  | nil => simpa using h
  | cons t ts ih =>
    rw [List.foldl_cons]
    apply ih
    by_cases ht : isToolchainDep t
    · simpa [ht] using h
    · simp only [Bool.not_eq_true] at ht
      simpa [ht] using nodup_addUnique h

/-- Full membership characterization of the collection phase of
`printExport`. -/
theorem mem_uniqueDepsOf_aux (ds : List (String × List String))
    (acc : List String) (x : String) :
    x ∈ ds.foldl
        (fun acc p =>
          let acc1 := if p.1 != "temp" && !isToolchainDep p.1 then addUnique p.1 acc else acc
          p.2.foldl (fun a t => if !isToolchainDep t then addUnique t a else a) acc1)
        acc ↔
      x ∈ acc ∨
        (isToolchainDep x = false ∧ ∃ p ∈ ds, (p.1 = x ∧ x ≠ "temp") ∨ x ∈ p.2) := by
  induction ds generalizing acc with
  | nil => simp
  | cons p ds ih =>
    rw [List.foldl_cons, ih, mem_export_inner]
    constructor
    · rintro ((h | h) | ⟨h1, h2⟩)
      · by_cases hc : (p.1 != "temp" && !isToolchainDep p.1) = true
        · rcases mem_addUnique.mp (by simpa [hc] using h) with h3 | rfl
          · exact Or.inl h3
          · rcases Bool.and_eq_true_iff.mp hc with ⟨hc1, hc2⟩
            refine Or.inr ⟨by simpa using hc2, p, List.mem_cons_self _ _, Or.inl ⟨rfl, ?_⟩⟩
            simpa using hc1
        · exact Or.inl (by simpa [hc] using h)
      · exact Or.inr ⟨h.2, p, List.mem_cons_self _ _, Or.inr h.1⟩
      · exact Or.inr ⟨h1, h2.choose, List.mem_cons_of_mem _ h2.choose_spec.1, h2.choose_spec.2⟩
    · rintro (h | ⟨h1, q, hq, hcase⟩)
      · left; left
        by_cases hc : (p.1 != "temp" && !isToolchainDep p.1) = true
        · simpa [hc] using mem_addUnique.mpr (Or.inl h)
        · simpa [hc] using h
      · rcases List.mem_cons.mp hq with rfl | hq2
        · rcases hcase with ⟨rfl, hx⟩ | hx
          · left; left
            have hc : (q.1 != "temp" && !isToolchainDep q.1) = true := by
              simp [hx, h1]
            simpa [hc] using mem_addUnique.mpr (Or.inr rfl)
          · exact Or.inl (Or.inr ⟨hx, h1⟩)
        · exact Or.inr ⟨h1, q, hq2, hcase⟩

theorem mem_uniqueDepsOf (deps : List (String × List String)) (x : String) :
    x ∈ uniqueDepsOf deps ↔
      isToolchainDep x = false ∧ ∃ p ∈ deps, (p.1 = x ∧ x ≠ "temp") ∨ x ∈ p.2 := by
  rw [uniqueDepsOf, mem_uniqueDepsOf_aux]
  simp

theorem nodup_uniqueDepsOf (deps : List (String × List String)) :
    (uniqueDepsOf deps).Nodup := by
  rw [uniqueDepsOf]
  have : ∀ (ds : List (String × List String)) (acc : List String), acc.Nodup →
      (ds.foldl
        (fun acc p =>
          let acc1 := if p.1 != "temp" && !isToolchainDep p.1 then addUnique p.1 acc else acc
          p.2.foldl (fun a t => if !isToolchainDep t then addUnique t a else a) acc1)
        acc).Nodup := by
    intro ds
    induction ds with
    | nil => intro acc h; simpa using h
    | cons p ds ih =>
      intro acc h
      rw [List.foldl_cons]
      apply ih
      apply nodup_export_inner
      by_cases hc : (p.1 != "temp" && !isToolchainDep p.1) = true
      · simpa [hc] using nodup_addUnique h
      · simpa [hc] using h
  exact this deps [] List.nodup_nil

/-- **C6**: export mode without descriptions prints exactly the identifiers
consisting of every `from` key other than `"temp"` and every `to` value,
excluding toolchain pseudo-dependencies (`go@` / `toolchain@` prefixes) in
either position, each distinct identifier exactly once, sorted ascending
lexicographically, one line per identifier. -/
theorem c6_export_characterization (net : String → String → HttpResult)
    (deps : List (String × List String)) (token : String) :
    (∀ s, s ∈ printExportLines net deps false token ↔
        isToolchainDep s = false ∧ ∃ p ∈ deps, (p.1 = s ∧ s ≠ "temp") ∨ s ∈ p.2)
    ∧ (printExportLines net deps false token).Nodup
    ∧ (printExportLines net deps false token).Pairwise (fun a b => leStr a b = true) := by
  have hout : printExportLines net deps false token = sortStrings (uniqueDepsOf deps) := rfl
  refine ⟨fun s => ?_, ?_, ?_⟩
  · rw [hout, mem_sortStrings, mem_uniqueDepsOf]
  · rw [hout, (sortStrings_perm (uniqueDepsOf deps)).nodup_iff]
    exact nodup_uniqueDepsOf deps
  · rw [hout]
    exact sortStrings_pairwise (uniqueDepsOf deps)

theorem find?_map_pair (l : List String) (f : String → String) (d : String)
    (h : d ∈ l) :
    (l.map (fun x => (x, f x))).find? (fun p => p.1 == d) = some (d, f d) := by
  induction l with
  | nil => cases h
  | cons x xs ih =>
    by_cases hx : x = d
    · subst hx
      simp [List.find?]
    · have hx' : (x == d) = false := by simp [hx]
      rcases List.mem_cons.mp h with rfl | h2
      · exact absurd rfl hx
      · simp only [List.map_cons, List.find?, hx']
        exact ih h2

/-- **C9**: in export mode with descriptions enabled, every printed line
carries a `" - <description>"` suffix: the descriptions map holds an entry for
every identifier of the sorted list before printing, so the bare-identifier
fallback branch is unreachable and the output is exactly each identifier
suffixed with its description (fetched text or parenthesized failure
reason). -/
theorem c9_export_desc_total (net : String → String → HttpResult)
    (deps : List (String × List String)) (token : String) :
    printExportLines net deps true token =
      (sortStrings (uniqueDepsOf deps)).map
        (fun d => d ++ " - " ++ descString net d token) := by
  unfold printExportLines
  simp only [if_true]
  apply List.map_congr_left
  intro d hd
  rw [find?_map_pair _ _ _ hd]

/-! ## Enrichment failure isolation (claim C8) -/

/-- **C8**: per-node enrichment failures become display data and are never
propagated.  (1) If the identifier's version-stripped form does not match the
`github.com/<owner>/<repo>` convention, the fetch fails with
`not a GitHub module` for every network oracle — so no network call can
influence it — and the recorded description is the placeholder
`(not a GitHub module)`.  (2) For every node and every network outcome, the
recorded description is either the successfully fetched text or the
parenthesized failure reason; no error escapes.  (3) The pass completes for
every collected node: the description map carries an entry for each distinct
collected identifier. -/
theorem c8_enrichment_isolated (net : String → String → HttpResult)
    (name token : String) :
    (extractGitHubRepo name = none →
      (∀ (net2 : String → String → HttpResult) (token2 : String),
        fetchGitHubDescription net2 name token2 = Except.error "not a GitHub module")
      ∧ descString net name token = "(not a GitHub module)")
    ∧ ((∃ d, fetchGitHubDescription net name token = Except.ok d ∧
          descString net name token = d)
      ∨ (∃ e, fetchGitHubDescription net name token = Except.error e ∧
          descString net name token = "(" ++ e ++ ")"))
    ∧ (∀ root : Node,
        (fetchDescriptionsMap net root token).map Prod.fst = dedupStr (collectNames root)) := by
  refine ⟨fun h => ⟨fun net2 token2 => ?_, ?_⟩, ?_, fun root => ?_⟩
  · rw [fetchGitHubDescription, h]
  · simp [descString, fetchGitHubDescription, h]
  · cases hf : fetchGitHubDescription net name token with
    | ok d => exact Or.inl ⟨d, rfl, by rw [descString, hf]⟩
    | error e => exact Or.inr ⟨e, rfl, by rw [descString, hf]⟩
  · rw [fetchDescriptionsMap, List.map_map]
    exact List.map_id _

theorem c8_witness :
    extractGitHubRepo "example.org/foo" = none ∧
      ((∀ (net2 : String → String → HttpResult) (token2 : String),
        fetchGitHubDescription net2 "example.org/foo" token2 =
          Except.error "not a GitHub module")
      ∧ descString (fun _ _ => HttpResult.response 200 (Except.ok "x"))
          "example.org/foo" "" = "(not a GitHub module)") :=
  ⟨by decide,
    (c8_enrichment_isolated (fun _ _ => HttpResult.response 200 (Except.ok "x"))
      "example.org/foo" "").1 (by decide)⟩

/-! ## The visited set only grows -/

theorem subset_buildChildrenAux (rec : String → List String → Node × List String)
    (hrec : ∀ c v, ∀ x ∈ v, x ∈ (rec c v).2) :
    ∀ (cs : List String) (acc : NodeChildren) (visited : List String),
      ∀ x ∈ visited, x ∈ (buildChildrenAux rec cs acc visited).2 := by
  intro cs
  induction cs with
  | nil => intro acc visited x hx; simpa [buildChildrenAux] using hx
  | cons c cs ih =>
    intro acc visited x hx
    by_cases h : acc.hasKey c
    · simp only [buildChildrenAux, h, if_true]
      exact ih acc visited x hx
    · simp only [buildChildrenAux, h, Bool.false_eq_true, if_false]
      exact ih _ _ x (hrec c visited x hx)

theorem subset_buildTreeF (deps : List (String × List String)) :
    ∀ (fuel : Nat) (name : String) (visited : List String),
      ∀ x ∈ visited, x ∈ (buildTreeF deps fuel name visited).2 := by
  intro fuel
  induction fuel with
  | zero => intro name visited x hx; simpa [buildTreeF] using hx
  | succ fuel ih =>
    intro name visited x hx
    by_cases h : name ∈ visited
    · simpa [buildTreeF, h] using hx
    · simp only [buildTreeF]
      rw [if_neg (by rw [containsStr]; exact h)]
      exact subset_buildChildrenAux _ (fun c v => ih c v) _ _ _ x
        (List.mem_cons_of_mem _ hx)

/-! ## Termination measure: mapping keys not yet visited -/

def unvisitedCount (deps : List (String × List String)) (visited : List String) : Nat :=
  (deps.map Prod.fst).countP (fun k => !(visited.contains k))

theorem unvisitedCount_nil (deps : List (String × List String)) :
    unvisitedCount deps [] = deps.length := by
  unfold unvisitedCount
  rw [show (fun k => !(([] : List String).contains k)) = fun _ => true by
    funext k; simp]
  rw [List.countP_true, List.length_map]

theorem unvisitedCount_mono (deps : List (String × List String))
    {v w : List String} (h : ∀ x ∈ v, x ∈ w) :
    unvisitedCount deps w ≤ unvisitedCount deps v := by
  apply List.countP_mono_left
  intro k _ hk
  rw [Bool.not_eq_true', containsStr_false] at hk ⊢
  exact fun hkv => hk (h k hkv)

theorem countP_unvisited_cons_lt (l : List String) {name : String}
    {v : List String} (h1 : name ∈ l) (h2 : name ∉ v) :
    l.countP (fun k => !((name :: v).contains k)) <
      l.countP (fun k => !(v.contains k)) := by
  induction l with
  | nil => cases h1
  | cons k ks ih =>
    rw [List.countP_cons, List.countP_cons]
    have hmono : ks.countP (fun k => !((name :: v).contains k)) ≤
        ks.countP (fun k => !(v.contains k)) := by
      apply List.countP_mono_left
      intro x _ hx
      rw [Bool.not_eq_true', containsStr_false] at hx ⊢
      exact fun hxv => hx (List.mem_cons_of_mem _ hxv)
    by_cases hk : k = name
    · subst hk
      have ha : (!((k :: v).contains k)) = false := by
        have : ((k :: v).contains k) = true := by
          rw [containsStr]; exact List.mem_cons_self _ _
        rw [this]; rfl
      have hb : (!(v.contains k)) = true := by
        rw [containsStr_false.mpr h2]; rfl
      rw [ha, hb]
      simp only [Bool.false_eq_true, if_false, if_true]
      omega
    · have hkc : ((name :: v).contains k) = (v.contains k) := by
        rw [List.contains_cons]
        have : (k == name) = false := by simp [hk]
        rw [this, Bool.false_or]
      rw [hkc]
      have h1' : name ∈ ks := by
        rcases List.mem_cons.mp h1 with h | h
        · exact absurd h.symm hk
        · exact h
      have := ih h1'
      omega

theorem unvisitedCount_cons_lt (deps : List (String × List String))
    {name : String} {v : List String} (h1 : name ∈ deps.map Prod.fst)
    (h2 : name ∉ v) :
    unvisitedCount deps (name :: v) < unvisitedCount deps v :=
  countP_unvisited_cons_lt (deps.map Prod.fst) h1 h2

theorem lookupDeps_eq_nil_of_not_key (deps : List (String × List String))
    {name : String} (h : name ∉ deps.map Prod.fst) :
    lookupDeps deps name = [] := by
  rw [lookupDeps, List.find?_eq_none.mpr]
  intro p hp
  rw [Bool.not_eq_true]
  have : p.1 ≠ name := fun he => h (he ▸ List.mem_map_of_mem Prod.fst hp)
  simp [this]

/-! ## Fuel irrelevance: the recursion stabilizes -/

theorem buildChildrenAux_stable (deps : List (String × List String))
    (a b bd : Nat)
    (ih : ∀ (v : List String) (name : String) (f1 f2 : Nat),
      unvisitedCount deps v ≤ bd → unvisitedCount deps v < f1 →
      unvisitedCount deps v < f2 →
      buildTreeF deps f1 name v = buildTreeF deps f2 name v) :
    ∀ (cs : List String) (acc : NodeChildren) (w : List String),
      unvisitedCount deps w ≤ bd → unvisitedCount deps w < a →
      unvisitedCount deps w < b →
      buildChildrenAux (fun c v => buildTreeF deps a c v) cs acc w =
        buildChildrenAux (fun c v => buildTreeF deps b c v) cs acc w := by
  intro cs
  induction cs with
  | nil => intro acc w _ _ _; rfl
  | cons c cs ihc =>
    intro acc w h1 h2 h3
    by_cases hk : acc.hasKey c
    · simp only [buildChildrenAux, hk, if_true]
      exact ihc acc w h1 h2 h3
    · simp only [buildChildrenAux, hk, Bool.false_eq_true, if_false]
      have heq : buildTreeF deps a c w = buildTreeF deps b c w := ih w c a b h1 h2 h3
      rw [← heq]
      have hsub : ∀ x ∈ w, x ∈ (buildTreeF deps a c w).2 :=
        subset_buildTreeF deps a c w
      have hle : unvisitedCount deps (buildTreeF deps a c w).2 ≤ unvisitedCount deps w :=
        unvisitedCount_mono deps hsub
      exact ihc _ _ (le_trans hle h1) (lt_of_le_of_lt hle h2) (lt_of_le_of_lt hle h3)

theorem buildTreeF_stable (deps : List (String × List String)) :
    ∀ (bound : Nat) (v : List String) (name : String) (f1 f2 : Nat),
      unvisitedCount deps v ≤ bound → unvisitedCount deps v < f1 →
      unvisitedCount deps v < f2 →
      buildTreeF deps f1 name v = buildTreeF deps f2 name v := by
  intro bound
  induction bound with
  | zero =>
    intro v name f1 f2 h0 h1 h2
    obtain ⟨a, rfl⟩ : ∃ a, f1 = a + 1 := ⟨f1 - 1, by omega⟩
    obtain ⟨b, rfl⟩ : ∃ b, f2 = b + 1 := ⟨f2 - 1, by omega⟩
    by_cases hv : name ∈ v
    · simp [buildTreeF, hv]
    · by_cases hmem : name ∈ deps.map Prod.fst
      · exfalso
        have : 0 < unvisitedCount deps v := by
          rw [unvisitedCount, List.countP_pos_iff]
          exact ⟨name, hmem, by rw [containsStr_false.mpr hv]; rfl⟩
        omega
      · have hnil : lookupDeps deps name = [] := lookupDeps_eq_nil_of_not_key deps hmem
        simp [buildTreeF, hv, hnil, buildChildrenAux]
  | succ bd ih =>
    intro v name f1 f2 h0 h1 h2
    obtain ⟨a, rfl⟩ : ∃ a, f1 = a + 1 := ⟨f1 - 1, by omega⟩
    obtain ⟨b, rfl⟩ : ∃ b, f2 = b + 1 := ⟨f2 - 1, by omega⟩
    by_cases hv : name ∈ v
    · simp [buildTreeF, hv]
    · by_cases hmem : name ∈ deps.map Prod.fst
      · have hlt : unvisitedCount deps (name :: v) < unvisitedCount deps v :=
          unvisitedCount_cons_lt deps hmem hv
        have hch := buildChildrenAux_stable deps a b bd ih (lookupDeps deps name)
          NodeChildren.nil (name :: v) (by omega) (by omega) (by omega)
        simp only [buildTreeF]
        rw [if_neg (by rw [containsStr]; exact hv), if_neg (by rw [containsStr]; exact hv)]
        rw [hch]
      · have hnil : lookupDeps deps name = [] := lookupDeps_eq_nil_of_not_key deps hmem
        simp [buildTreeF, hv, hnil, buildChildrenAux]

/-- **C1**: for every finite edge mapping and every starting root, the tree
construction terminates, including on cyclic mappings such as A→B, B→A: the
fuelled recursion becomes independent of the fuel as soon as it exceeds the
number of mapping entries — the visited check short-circuits every
re-expansion — so every sufficiently large fuel yields the one tree
`buildTree deps root`. -/
theorem c1_buildTree_terminates (deps : List (String × List String))
    (root : String) (fuel : Nat) (h : deps.length < fuel) :
    (buildTreeF deps fuel root []).1 = buildTree deps root := by
  rw [buildTree]
  rw [buildTreeF_stable deps deps.length [] root fuel (deps.length + 1)
    (le_of_eq (unvisitedCount_nil deps))
    (lt_of_eq_of_lt (unvisitedCount_nil deps) h)
    (lt_of_eq_of_lt (unvisitedCount_nil deps) (Nat.lt_succ_self _))]

theorem c1_witness :
    ([("A", ["B"]), ("B", ["A"])] : List (String × List String)).length < 10 ∧
      (buildTreeF [("A", ["B"]), ("B", ["A"])] 10 "A" []).1 =
        buildTree [("A", ["B"]), ("B", ["A"])] "A" :=
  ⟨by decide, c1_buildTree_terminates [("A", ["B"]), ("B", ["A"])] "A" 10 (by decide)⟩

/-! ## Structural invariants of the built tree (claims C3 and C4) -/

@[simp] theorem Node.name_mk (n d : String) (cs : NodeChildren) :
    (Node.mk n d cs).name = n := rfl

@[simp] theorem Node.children_mk (n d : String) (cs : NodeChildren) :
    (Node.mk n d cs).children = cs := rfl

@[simp] theorem Node.allNodes_mk (n d : String) (cs : NodeChildren) :
    (Node.mk n d cs).allNodes = Node.mk n d cs :: cs.allNodesC := rfl

@[simp] theorem NodeChildren.allNodesC_nil : NodeChildren.nil.allNodesC = [] := rfl

@[simp] theorem NodeChildren.allNodesC_cons (k : String) (c : Node) (rest : NodeChildren) :
    (NodeChildren.cons k c rest).allNodesC = c.allNodes ++ rest.allNodesC := rfl

@[simp] theorem expandedOf_nil : expandedOf [] = [] := rfl

theorem expandedOf_append (a b : List Node) :
    expandedOf (a ++ b) = expandedOf a ++ expandedOf b :=
  List.filterMap_append a b _

theorem expandedOf_perm {a b : List Node} (h : List.Perm a b) :
    List.Perm (expandedOf a) (expandedOf b) :=
  h.filterMap _

theorem hasKey_insertChild (c : String) (n : Node) :
    ∀ (acc : NodeChildren) (x : String),
      (insertChild c n acc).hasKey x = true ↔ c = x ∨ acc.hasKey x = true
  | .nil, x => by
    simp only [insertChild, NodeChildren.hasKey, Bool.or_false]
    rw [beq_iff_eq]
    tauto
  | .cons k m rest, x => by
    by_cases hle : leStr c k = true
    · simp only [insertChild, hle, if_true, NodeChildren.hasKey, Bool.or_eq_true, beq_iff_eq]
    · have ih := hasKey_insertChild c n rest x
      simp only [insertChild, hle, Bool.false_eq_true, if_false, NodeChildren.hasKey,
        Bool.or_eq_true, ih, beq_iff_eq]
      tauto

theorem allNodesC_insertChild (c : String) (n : Node) :
    ∀ acc : NodeChildren,
      List.Perm (insertChild c n acc).allNodesC (n.allNodes ++ acc.allNodesC)
  | .nil => by simp [insertChild]
  | .cons k m rest => by
    by_cases hle : leStr c k = true
    · simp [insertChild, hle]
    · have ih := allNodesC_insertChild c n rest
      simp only [insertChild, hle, Bool.false_eq_true, if_false,
        NodeChildren.allNodesC_cons]
      have p1 : List.Perm (m.allNodes ++ (insertChild c n rest).allNodesC)
          (m.allNodes ++ (n.allNodes ++ rest.allNodesC)) := List.Perm.append_left _ ih
      have p2 : List.Perm ((m.allNodes ++ n.allNodes) ++ rest.allNodesC)
          ((n.allNodes ++ m.allNodes) ++ rest.allNodesC) :=
        List.Perm.append_right _ List.perm_append_comm
      have p3 : List.Perm (m.allNodes ++ (n.allNodes ++ rest.allNodesC))
          (n.allNodes ++ (m.allNodes ++ rest.allNodesC)) := by
        rw [← List.append_assoc, ← List.append_assoc]
        exact p2
      exact p1.trans p3

/-- One-node key property: either the node carries no children, or its
children's keys are exactly the dependency identifiers listed for its name. -/
def nodeKeysMatch (deps : List (String × List String)) (n : Node) : Prop :=
  n.children = NodeChildren.nil ∨
    ∀ c, (n.children.hasKey c = true ↔ c ∈ lookupDeps deps n.name)

theorem buildChildrenAux_inv (deps : List (String × List String))
    (rec : String → List String → Node × List String)
    (hrec : ∀ c v,
      (∀ x ∈ v, x ∈ (rec c v).2)
      ∧ (∀ a ∈ expandedNames (rec c v).1, a ∈ (rec c v).2 ∧ a ∉ v)
      ∧ (expandedNames (rec c v).1).Nodup
      ∧ (∀ n ∈ (rec c v).1.allNodes, nodeKeysMatch deps n)) :
    ∀ (cs : List String) (acc : NodeChildren) (w : List String),
      (∀ x ∈ w, x ∈ (buildChildrenAux rec cs acc w).2)
      ∧ (∀ x, (buildChildrenAux rec cs acc w).1.hasKey x = true ↔
          acc.hasKey x = true ∨ x ∈ cs)
      ∧ ∃ extra : List Node,
          List.Perm (buildChildrenAux rec cs acc w).1.allNodesC (acc.allNodesC ++ extra)
          ∧ (∀ a ∈ expandedOf extra, a ∈ (buildChildrenAux rec cs acc w).2 ∧ a ∉ w)
          ∧ (expandedOf extra).Nodup
          ∧ (∀ n ∈ extra, nodeKeysMatch deps n) := by
  intro cs
  induction cs with
  | nil =>
    intro acc w
    refine ⟨fun x hx => hx, fun x => by simp [buildChildrenAux], [], by simp [buildChildrenAux], ?_, ?_, ?_⟩
    · simp
    · simp
    · simp
  | cons c cs ih =>
    intro acc w
    by_cases hk : acc.hasKey c = true
    · obtain ⟨i1, i2, extra, hperm, he, hn, hkm⟩ := ih acc w
      simp only [buildChildrenAux, hk, if_true]
      refine ⟨i1, fun x => ?_, extra, hperm, he, hn, hkm⟩
      rw [i2, List.mem_cons]
      constructor
      · tauto
      · rintro (h | rfl | h)
        · exact Or.inl h
        · exact Or.inl hk
        · exact Or.inr h
    · obtain ⟨hr1, hr2, hr3, hr4⟩ := hrec c w
      obtain ⟨i1, i2, extra2, hperm2, he2, hn2, hkm2⟩ := ih (insertChild c (rec c w).1 acc) (rec c w).2
      have hred : buildChildrenAux rec (c :: cs) acc w =
          buildChildrenAux rec cs (insertChild c (rec c w).1 acc) (rec c w).2 := by
        simp only [buildChildrenAux, hk, Bool.false_eq_true, if_false]
      rw [hred]
      refine ⟨fun x hx => i1 x (hr1 x hx), fun x => ?_,
        (rec c w).1.allNodes ++ extra2, ?_, ?_, ?_, ?_⟩
      · rw [i2, hasKey_insertChild, List.mem_cons]
        tauto
      · have p1 : List.Perm ((insertChild c (rec c w).1 acc).allNodesC ++ extra2)
            (((rec c w).1.allNodes ++ acc.allNodesC) ++ extra2) :=
          List.Perm.append_right _ (allNodesC_insertChild c (rec c w).1 acc)
        have p2 : List.Perm (((rec c w).1.allNodes ++ acc.allNodesC) ++ extra2)
            (acc.allNodesC ++ ((rec c w).1.allNodes ++ extra2)) := by
          rw [← List.append_assoc]
          exact List.Perm.append_right _ List.perm_append_comm
        exact hperm2.trans (p1.trans p2)
      · intro a ha
        rw [expandedOf_append, List.mem_append] at ha
        rcases ha with ha | ha
        · have h2 := hr2 a ha
          exact ⟨i1 a h2.1, h2.2⟩
        · have h2 := he2 a ha
          exact ⟨h2.1, fun hw => h2.2 (hr1 a hw)⟩
      · rw [expandedOf_append, List.nodup_append]
        refine ⟨hr3, hn2, ?_⟩
        intro a ha hb
        exact (he2 a hb).2 ((hr2 a ha).1)
      · intro n hn
        rcases List.mem_append.mp hn with h | h
        · exact hr4 n h
        · exact hkm2 n h

theorem buildTreeF_inv (deps : List (String × List String)) :
    ∀ (fuel : Nat) (name : String) (v : List String),
      (∀ x ∈ v, x ∈ (buildTreeF deps fuel name v).2)
      ∧ (∀ a ∈ expandedNames (buildTreeF deps fuel name v).1,
          a ∈ (buildTreeF deps fuel name v).2 ∧ a ∉ v)
      ∧ (expandedNames (buildTreeF deps fuel name v).1).Nodup
      ∧ (∀ n ∈ (buildTreeF deps fuel name v).1.allNodes, nodeKeysMatch deps n) := by
  intro fuel
  induction fuel with
  | zero =>
    intro name v
    refine ⟨fun x hx => hx, ?_, ?_, ?_⟩
    · intro a ha
      simp [buildTreeF, expandedNames, expandedOf, NodeChildren.isEmpty] at ha
    · simp [buildTreeF, expandedNames, expandedOf, NodeChildren.isEmpty]
    · intro n hn
      simp only [buildTreeF, Node.allNodes_mk, NodeChildren.allNodesC_nil,
        List.mem_singleton] at hn
      subst hn
      exact Or.inl rfl
  | succ fuel ih =>
    intro name v
    by_cases hv : name ∈ v
    · have hred : buildTreeF deps (fuel + 1) name v = (Node.mk name "" NodeChildren.nil, v) := by
        simp [buildTreeF, hv]
      rw [hred]
      refine ⟨fun x hx => hx, ?_, ?_, ?_⟩
      · intro a ha
        simp [expandedNames, expandedOf, NodeChildren.isEmpty] at ha
      · simp [expandedNames, expandedOf, NodeChildren.isEmpty]
      · intro n hn
        simp only [Node.allNodes_mk, NodeChildren.allNodesC_nil, List.mem_singleton] at hn
        subst hn
        exact Or.inl rfl
    · obtain ⟨i1, i2, extra, hperm, he, hn, hkm⟩ :=
        buildChildrenAux_inv deps (fun c v => buildTreeF deps fuel c v)
          (fun c v => ih c v) (lookupDeps deps name) NodeChildren.nil (name :: v)
      have hred : buildTreeF deps (fuel + 1) name v =
          (Node.mk name ""
            (buildChildrenAux (fun c v => buildTreeF deps fuel c v)
              (lookupDeps deps name) NodeChildren.nil (name :: v)).1,
          (buildChildrenAux (fun c v => buildTreeF deps fuel c v)
              (lookupDeps deps name) NodeChildren.nil (name :: v)).2) := by
        simp only [buildTreeF]
        rw [if_neg (by rw [containsStr]; exact hv)]
      rw [hred]
      set r := buildChildrenAux (fun c v => buildTreeF deps fuel c v)
        (lookupDeps deps name) NodeChildren.nil (name :: v) with hr
      simp only [NodeChildren.allNodesC_nil, List.nil_append] at hperm
      have hexp : List.Perm (expandedOf r.1.allNodesC) (expandedOf extra) :=
        expandedOf_perm hperm
      have hexpNames : expandedNames (Node.mk name "" r.1) =
          (if r.1.isEmpty then [] else [name]) ++ expandedOf r.1.allNodesC := by
        rw [expandedNames, Node.allNodes_mk, expandedOf, List.filterMap_cons]
        by_cases hemp : r.1.isEmpty
        · simp only [Node.children_mk, hemp, if_true, List.nil_append]
          rfl
        · simp only [Node.children_mk, hemp, Bool.false_eq_true, if_false, Node.name_mk]
          rfl
      refine ⟨fun x hx => i1 x (List.mem_cons_of_mem _ hx), ?_, ?_, ?_⟩
      · intro a ha
        rw [hexpNames, List.mem_append] at ha
        rcases ha with ha | ha
        · have : a = name := by
            by_cases hemp : r.1.isEmpty <;> simp [hemp] at ha
            exact ha
          subst this
          exact ⟨i1 a (List.mem_cons_self _ _), hv⟩
        · have h2 := he a (hexp.mem_iff.mp ha)
          exact ⟨h2.1, fun hw => h2.2 (List.mem_cons_of_mem _ hw)⟩
      · rw [hexpNames, List.nodup_append]
        refine ⟨?_, hexp.nodup_iff.mpr hn, ?_⟩
        · by_cases hemp : r.1.isEmpty <;> simp [hemp]
        · intro a ha hb
          have h2 := he a (hexp.mem_iff.mp hb)
          have : a = name := by
            by_cases hemp : r.1.isEmpty <;> simp [hemp] at ha
            exact ha
          exact h2.2 (this ▸ List.mem_cons_self _ _)
      · intro n hnode
        rw [Node.allNodes_mk, List.mem_cons] at hnode
        rcases hnode with rfl | hnode
        · cases hcs : r.1 with
          | nil => exact Or.inl (by simp [hcs])
          | cons k child rest =>
            refine Or.inr ?_
            intro c
            rw [Node.children_mk, Node.name_mk, ← hcs]
            rw [i2 c]
            simp [NodeChildren.hasKey]
        · exact hkm n (hperm.mem_iff.mp hnode)

/-- **C3**: global visited-set (first-path-wins) semantics.  A reference to an
already-visited identifier is materialized as a node carrying that identifier
and no children (first conjunct); globally at most one node per identifier is
ever expanded — the expanded names of the built tree are pairwise distinct and
none of them was visited beforehand (second and third conjuncts); and every
node that does carry children carries exactly the dependency list of its
identifier, i.e. the parent whose traversal reached it first received its full
one-level expansion, recursively subject to the same rule (fourth
conjunct). -/
theorem c3_first_path_wins (deps : List (String × List String)) (fuel : Nat)
    (name : String) (visited : List String) :
    (name ∈ visited →
      buildTreeF deps fuel name visited = (Node.mk name "" NodeChildren.nil, visited))
    ∧ (expandedNames (buildTreeF deps fuel name visited).1).Nodup
    ∧ (∀ a ∈ expandedNames (buildTreeF deps fuel name visited).1, a ∉ visited)
    ∧ (∀ n ∈ (buildTreeF deps fuel name visited).1.allNodes,
        n.children = NodeChildren.nil ∨
          ∀ c, (n.children.hasKey c = true ↔ c ∈ lookupDeps deps n.name)) := by
  obtain ⟨i1, i2, i3, i4⟩ := buildTreeF_inv deps fuel name visited
  refine ⟨fun hv => ?_, i3, fun a ha => (i2 a ha).2, i4⟩
  cases fuel with
  | zero => rfl
  | succ fuel => simp [buildTreeF, hv]

theorem c3_witness :
    ("c" ∈ ["c", "a", "root"]) ∧
      buildTreeF [("root", ["a", "b"]), ("a", ["c"]), ("b", ["c"])] 2 "c" ["c", "a", "root"] =
        (Node.mk "c" "" NodeChildren.nil, ["c", "a", "root"]) :=
  ⟨by decide,
    (c3_first_path_wins [("root", ["a", "b"]), ("a", ["c"]), ("b", ["c"])] 2 "c"
      ["c", "a", "root"]).1 (by decide)⟩

/-- The mapping in which `c` is reachable both through `a` and through `b`. -/
def exDeps4 : List (String × List String) :=
  [("root", ["a", "b"]), ("a", ["c"]), ("b", ["c"])]

/-- **C4 counterexample**: the claim says that once an identifier has been
marked visited no further `Node` is constructed with that identifier, which
would leave at most one node per identifier in the built tree.  But on
`exDeps4` the identifier `c` begins expansion under `a`, and the later
traversal of `b` still constructs a second (childless) node named `c`: the
built tree contains two nodes carrying the identifier `c`. -/
theorem c4_counterexample :
    ¬ ((buildTree exDeps4 "root").allNodes.countP (fun n => n.name == "c") ≤ 1) := by
  decide

/-- **C4 (amended)**: once an identifier has been marked visited, `buildTree`
never *expands* another node with that identifier — later references are
materialized childless — so for every identifier at most one node of the
built tree carries children. -/
theorem c4_single_expansion (deps : List (String × List String))
    (root a : String) :
    (expandedNames (buildTree deps root)).count a ≤ 1 := by
  have h := (buildTreeF_inv deps (deps.length + 1) root []).2.2.1
  rw [buildTree]
  exact List.nodup_iff_count_le_one.mp h a

/-! ## Re-rooting for named-package mode (claim C5) -/

theorem findMatch_some (p : String → Bool) :
    ∀ (cs : NodeChildren) (k : String) (n : Node),
      cs.findMatch p = some (k, n) → (k, n) ∈ cs.toList ∧ p k = true
  | .nil, k, n, h => by simp [NodeChildren.findMatch] at h
  | .cons k0 c0 rest, k, n, h => by
    by_cases hp : p k0 = true
    · simp only [NodeChildren.findMatch, hp, if_true, Option.some.injEq] at h
      obtain ⟨h1, h2⟩ := Prod.mk.injEq .. ▸ h
      subst h1; subst h2
      exact ⟨List.mem_cons_self _ _, hp⟩
    · simp only [NodeChildren.findMatch, hp, Bool.false_eq_true, if_false] at h
      obtain ⟨hm, hpk⟩ := findMatch_some p rest k n h
      exact ⟨List.mem_cons_of_mem _ hm, hpk⟩

theorem findMatch_none (p : String → Bool) :
    ∀ cs : NodeChildren, cs.findMatch p = none →
      ∀ (k : String) (n : Node), (k, n) ∈ cs.toList → p k = false
  | .nil, _, k, n, hm => by simp [NodeChildren.toList] at hm
  | .cons k0 c0 rest, h, k, n, hm => by
    by_cases hp : p k0 = true
    · simp [NodeChildren.findMatch, hp] at h
    · simp only [NodeChildren.findMatch, hp, Bool.false_eq_true, if_false] at h
      rcases List.mem_cons.mp hm with he | hm2
      · obtain ⟨h1, _⟩ := Prod.mk.injEq .. ▸ he
        subst h1
        exact Bool.not_eq_true _ ▸ hp
      · exact findMatch_none p rest h k n hm2

theorem buildDependencyTree_temp (deps : List (String × List String))
    (req : String) (hroot : selectRoot deps = "temp") (hreq : req ≠ "") :
    buildDependencyTree deps req =
      (match (buildTree deps "temp").children.findMatch
          (fun childName => matchesRequested (stripVersion req) childName) with
        | some p => p.2
        | none => buildTree deps "temp") := by
  have h2 : (req != "") = true := bne_iff_ne.mpr hreq
  simp [buildDependencyTree, hroot, h2]

def exDeps5 : List (String × List String) :=
  [("temp", ["host/owner/repo@v1.0.0"]), ("host/owner/repo@v1.0.0", ["dep@v1.0.0"])]

/-- **C5**: when the selected root is the sentinel `"temp"` and a package was
requested, `buildDependencyTree` returns a direct child of the built root
whose version-stripped identifier is a prefix of, or prefixed by, the
requested identifier's version-stripped form, and returns the unmodified root
when no child matches; in particular on the example mapping with requested
identifier `"host/owner/repo"` the returned root is named
`"host/owner/repo@v1.0.0"`, not `"temp"`. -/
theorem c5_rerooting :
    (∀ (deps : List (String × List String)) (req : String),
      selectRoot deps = "temp" → req ≠ "" →
      (∃ k n, (k, n) ∈ (buildTree deps "temp").children.toList ∧
        matchesRequested (stripVersion req) k = true ∧
        buildDependencyTree deps req = n)
      ∨ ((∀ k n, (k, n) ∈ (buildTree deps "temp").children.toList →
            matchesRequested (stripVersion req) k = false)
          ∧ buildDependencyTree deps req = buildTree deps "temp"))
    ∧ (buildDependencyTree exDeps5 "host/owner/repo").name = "host/owner/repo@v1.0.0" := by
  constructor
  · intro deps req hroot hreq
    rw [buildDependencyTree_temp deps req hroot hreq]
    cases hm : (buildTree deps "temp").children.findMatch
        (fun childName => matchesRequested (stripVersion req) childName) with
    | some pr =>
      left
      obtain ⟨hmem, hp⟩ := findMatch_some _ _ pr.1 pr.2 (by rw [hm])
      exact ⟨pr.1, pr.2, hmem, hp, rfl⟩
    | none =>
      right
      exact ⟨fun k n hmem => findMatch_none _ _ hm k n hmem, rfl⟩
  · decide

theorem c5_witness :
    selectRoot exDeps5 = "temp" ∧ ("host/owner/repo" : String) ≠ "" ∧
      ((∃ k n, (k, n) ∈ (buildTree exDeps5 "temp").children.toList ∧
        matchesRequested (stripVersion "host/owner/repo") k = true ∧
        buildDependencyTree exDeps5 "host/owner/repo" = n)
      ∨ ((∀ k n, (k, n) ∈ (buildTree exDeps5 "temp").children.toList →
            matchesRequested (stripVersion "host/owner/repo") k = false)
          ∧ buildDependencyTree exDeps5 "host/owner/repo" = buildTree exDeps5 "temp")) :=
  ⟨by decide, by decide, c5_rerooting.1 exDeps5 "host/owner/repo" (by decide) (by decide)⟩

end Deptree
